import Mathlib

/-!
Shallow embedding of the consensus-and-scoring engine of
`src/subnet/validator/validator.py` (velora-subnet), together with theorems
settling the specification claims about it.

Conventions of the embedding:
  * fallible Python computations are `Except PyErr`;
  * Python `dict`s are association lists in insertion order;
  * Python floats are rationals (`ℚ`) — every arithmetic operation performed
    by this code is exact on the values involved;
  * Python `int(x)` on a float is truncation toward zero (`pyInt`);
  * Python `sorted(..., reverse=True)` is a stable descending sort
    (`sortByScoreDesc`);
  * the iteration order of a Python `set` of strings is hash-dependent; it is
    modelled as an explicit parameter (`setOrder`) constrained by
    `validSetOrder`.
-/

namespace Velora

/-- Python exception classes that the embedded code can raise. -/
inductive PyErr where
  | typeError
  | zeroDivisionError
  | keyError
  | indexError
  | valueError
deriving DecidableEq

instance {ε α : Type} [DecidableEq ε] [DecidableEq α] : DecidableEq (Except ε α) := fun a b =>
  match a, b with
  | .error e1, .error e2 =>
    if h : e1 = e2 then isTrue (by rw [h]) else isFalse (by intro hh; cases hh; exact h rfl)
  | .error _, .ok _ => isFalse (by intro h; cases h)
  | .ok _, .error _ => isFalse (by intro h; cases h)
  | .ok v1, .ok v2 =>
    if h : v1 = v2 then isTrue (by rw [h]) else isFalse (by intro hh; cases hh; exact h rfl)

/-- One record of a miner payload, a dict with keys `block_number` and
`transaction_hash`.  The fields are `Option`s because the code reads them with
`.get(key, None)` in `check_miner_answer`; a direct subscript of a `none`
field models a missing key and raises `KeyError`. -/
structure Record where
  block_number : Option Int
  transaction_hash : Option String
deriving DecidableEq

/-- A decoded miner reply after `_get_miner_prediction` augments it with
`process_time` (a duration; `total_seconds()` is modelled as a rational). -/
structure MinerAnswer where
  data : List Record
  overall_data_hash : String
  process_time : ℚ
deriving DecidableEq

/-- The prompt produced by `get_miner_prompt` (validator.py line 366): a dict
of five strings. -/
structure MinerPrompt where
  token_a : String
  token_b : String
  fee : String
  start_datetime : String
  end_datetime : String
deriving DecidableEq

/-- One record of the oracle reply `get_pool_events_by_token_pairs(...)`; the
code reads it with `.get("transaction_hash")`. -/
structure PoolEvent where
  transaction_hash : Option String
deriving DecidableEq

/-- Python direct subscript `d[key]` of a possibly missing value: raises
`KeyError` when the key is absent. -/
def pySubscript {α : Type} (o : Option α) : Except PyErr α :=
  match o with
  | none => .error .keyError
  | some v => .ok v

/-- Python list indexing `l[i]`: raises `IndexError` out of range. -/
def pyListGet {α : Type} (l : List α) (i : Nat) : Except PyErr α :=
  match l.get? i with
  | none => .error .indexError
  | some v => .ok v

/-- Python true division: raises `ZeroDivisionError` on a zero denominator. -/
def pyDiv (a b : ℚ) : Except PyErr ℚ :=
  if b = 0 then .error .zeroDivisionError else .ok (a / b)

/-- Python `x ^ n` where `x` is a float: `^` is bitwise XOR, which is not
defined on floats, so the call raises `TypeError` (validator.py line 280 uses
`^`, not `**`). -/
def pyFloatXor (_x : ℚ) (_n : Int) : Except PyErr ℚ :=
  .error .typeError

/-- Python `int(x)` for a float `x`: truncation toward zero. -/
def pyInt (q : ℚ) : Int :=
  if 0 ≤ q then ⌊q⌋ else ⌈q⌉

/-- One summand of the comprehension at validator.py line 277:
`int(miner_answer["data"][i]["transaction_hash"] == ground_truth["data"][i]["transaction_hash"])`.
Left side first: the miner record's hash is subscripted, then the ground-truth
record is indexed (possible `IndexError`) and subscripted. -/
def correctAt (gt_data : List Record) (i : Nat) (r : Record) : Except PyErr Nat := do
  let h1 ← pySubscript r.transaction_hash
  let g ← pyListGet gt_data i
  let h2 ← pySubscript g.transaction_hash
  pure (if h1 = h2 then 1 else 0)

/-- The sum at validator.py line 277, iterating `i in range(len(miner_data))`. -/
def countCorrectAux (gt_data : List Record) : Nat → List Record → Except PyErr Nat
  | _, [] => .ok 0
  | i, r :: rest => do
    let c ← correctAt gt_data i r
    let s ← countCorrectAux gt_data (i + 1) rest
    pure (c + s)

/-- `cnt_correct_entry` of `_score_miner` (validator.py line 277). -/
def countCorrect (miner_data gt_data : List Record) : Except PyErr Nat :=
  countCorrectAux gt_data 0 miner_data

/-- Embeds `_score_miner` (validator.py lines 261-282).  `miner_answer` is
`None` or a decoded reply; `if not miner_answer: return 0`.  Otherwise the
code computes `((cnt_correct_entry - cnt_all * 0.75) / cnt_all * 4) ^ 3`:
the division raises `ZeroDivisionError` when `cnt_all = 0`, and otherwise the
`^` (bitwise XOR applied to a float) raises `TypeError`. -/
def scoreMiner (_miner_prompt : MinerPrompt) (miner_answer : Option MinerAnswer)
    (ground_truth : MinerAnswer) : Except PyErr ℚ :=
  match miner_answer with
  | none => .ok 0
  | some a => do
    let cnt_correct ← countCorrect a.data ground_truth.data
    let cnt_all := a.data.length
    let base ← pyDiv ((cnt_correct : ℚ) - (cnt_all : ℚ) * (3 / 4)) (cnt_all : ℚ)
    pyFloatXor (base * 4) 3

/-- A fixed prompt used to evaluate `scoreMiner` at concrete inputs (the
prompt parameter is unused by the accuracy formula). -/
def samplePrompt : MinerPrompt :=
  ⟨"tokenA", "tokenB", "3000", "2021-05-04 00:00:00", "2021-05-05 00:00:00"⟩

/-- The accuracy loop of `score_miners` (validator.py lines 435-446).  Workers
whose answer is falsy are skipped (`continue`).  For a replying worker the
code executes `self._score_miner(miner_answer, trust_miner_result)`
(line 442), passing two arguments to the three-parameter method
`_score_miner(self, miner_prompt, miner_answer, ground_truth)` (line 261);
Python raises `TypeError` (missing positional argument `ground_truth`). -/
def accuracyLoop : List (Nat × Option MinerAnswer) → Except PyErr (List (Nat × ℚ))
  | [] => .ok []
  | (_, none) :: rest => accuracyLoop rest
  | (_, some _) :: _ => .error .typeError

/-- The dict comprehension at validator.py line 448:
`{uid: miner_answer["process_time"].total_seconds() for uid, miner_answer in miner_results}`.
It iterates over every poll outcome, including workers whose answer is `None`;
subscripting `None` raises `TypeError`. -/
def latencyTimes : List (Nat × Option MinerAnswer) → Except PyErr (List (Nat × ℚ))
  | [] => .ok []
  | (_, none) :: _ => .error .typeError
  | (uid, some a) :: rest => do
    let ts ← latencyTimes rest
    pure ((uid, a.process_time) :: ts)

/-- Python `max` over the values of a dict (validator.py line 449); raises
`ValueError` on an empty collection. -/
def pyMaxList (l : List ℚ) : Except PyErr ℚ :=
  match l with
  | [] => .error .valueError
  | x :: xs => .ok (xs.foldl max x)

/-- Python `min` over the values of a dict (validator.py line 450); raises
`ValueError` on an empty collection. -/
def pyMinList (l : List ℚ) : Except PyErr ℚ :=
  match l with
  | [] => .error .valueError
  | x :: xs => .ok (xs.foldl min x)

/-- The dict comprehension at validator.py line 451:
`{uid: 1 - 0.5 * (process_time - min_time) / (max_time - min_time) for ...}`.
The division raises `ZeroDivisionError` whenever `max_time = min_time`. -/
def normalizeTimes (mn mx : ℚ) : List (Nat × ℚ) → Except PyErr (List (Nat × ℚ))
  | [] => .ok []
  | (uid, t) :: rest => do
    let q ← pyDiv ((1 / 2) * (t - mn)) (mx - mn)
    let qs ← normalizeTimes mn mx rest
    pure ((uid, 1 - q) :: qs)

/-- The latency-normalization block of `score_miners` (validator.py
lines 448-451). -/
def processTimeScore (miner_results : List (Nat × Option MinerAnswer)) :
    Except PyErr (List (Nat × ℚ)) := do
  let times ← latencyTimes miner_results
  let mx ← pyMaxList (times.map (·.2))
  let mn ← pyMinList (times.map (·.2))
  normalizeTimes mn mx times

/-- Embeds `score_miners` (validator.py lines 427-454): the accuracy loop,
the latency normalization, and the composite
`(accuracy_score[uid] + process_time_score[uid]) / 2` over the accuracy keys. -/
def score_miners (miner_results : List (Nat × Option MinerAnswer))
    (_trust_miner_result : MinerAnswer) : Except PyErr (List (Nat × ℚ)) := do
  let accuracy_score ← accuracyLoop miner_results
  let pts ← processTimeScore miner_results
  pure (accuracy_score.map fun kv => (kv.1, (kv.2 + ((pts.lookup kv.1).getD 0)) / 2))

/-- Insertion step of the stable descending sort: the new element `x` (which
comes later in the original list than everything in the accumulator) is placed
before the first element whose score is strictly smaller, i.e. after every
element with an equal or larger score. -/
def insertAfterGE (x : Nat × ℚ) : List (Nat × ℚ) → List (Nat × ℚ)
  | [] => [x]
  | y :: ys => if y.2 < x.2 then x :: y :: ys else y :: insertAfterGE x ys

/-- Python `sorted(score_dict.items(), key=lambda x: x[1], reverse=True)`
(validator.py line 113): a stable sort by score, highest first. -/
def sortByScoreDesc (l : List (Nat × ℚ)) : List (Nat × ℚ) :=
  l.foldl (fun acc x => insertAfterGE x acc) []

/-- Embeds `cut_to_max_allowed_weights` (validator.py lines 99-118): sort by
score descending (stable) and keep the first `max_allowed_weights` items. -/
def cut_to_max_allowed_weights (score_dict : List (Nat × ℚ))
    (max_allowed_weights : Nat) : List (Nat × ℚ) :=
  (sortByScoreDesc score_dict).take max_allowed_weights

/-- Embeds `set_weights` (validator.py lines 51-96) up to the `client.vote`
call; the returned association list is the `weighted_scores` dict whose keys
and values are submitted.  `scores` is the sum of the cut scores (line 78);
when the cut dict is non-empty and that sum is exactly zero, the first
`score * 1000 / scores` (line 84) raises `ZeroDivisionError`; when the cut
dict is empty the loop body never runs and an empty allocation is submitted.
Weights of exactly 0 are filtered out (line 91). -/
def set_weights (max_allowed_weights : Nat) (score_dict : List (Nat × ℚ)) :
    Except PyErr (List (Nat × Int)) :=
  let sd := cut_to_max_allowed_weights score_dict max_allowed_weights
  if sd.isEmpty then .ok []
  else
    let scores := (sd.map (·.2)).sum
    if scores = 0 then .error .zeroDivisionError
    else .ok ((sd.map fun kv => (kv.1, pyInt (kv.2 * 1000 / scores))).filter
      fun kv => kv.2 != 0)

/-- One step of Python's `max(iterable, key=overall_hashes.count)`: the
current maximum is replaced only when the new element's count is strictly
larger, so among equal counts the element seen first in iteration order
wins. -/
def pyMaxStep (hashes : List String) (acc : Option String) (h : String) :
    Option String :=
  match acc with
  | none => some h
  | some b => if hashes.count b < hashes.count h then some h else some b

/-- Embeds `max(set(overall_hashes), key=overall_hashes.count)` (validator.py
line 504).  `order` is the iteration order of the Python set
`set(overall_hashes)`, which is hash-dependent and NOT derived from the input
sequence; it is passed as an explicit parameter.  Returns `none` exactly when
`order` is empty (Python raises `ValueError` there, which only happens for an
empty set). -/
def pyMaxByCount (hashes order : List String) : Option String :=
  order.foldl (pyMaxStep hashes) none

/-- The orders that Python's `set(hashes)` can present: some enumeration,
without duplicates, of exactly the distinct elements of `hashes`. -/
def validSetOrder (hashes order : List String) : Prop :=
  order.Nodup ∧ (∀ h ∈ order, h ∈ hashes) ∧ (∀ h ∈ hashes, h ∈ order)

instance (hashes order : List String) : Decidable (validSetOrder hashes order) := by
  unfold validSetOrder; infer_instance

/-- `overall_hashes` (validator.py line 500): the `overall_data_hash` of every
non-`None` answer, in polling order. -/
def overallHashes (results : List (Nat × Option MinerAnswer)) : List String :=
  ((results.map (·.2)).filterMap id).map (·.overall_data_hash)

/-- `trust_miner_results` (validator.py line 506): the replies whose
`overall_data_hash` equals the winning hash, in polling order. -/
def trustResults (mch : String) (results : List (Nat × Option MinerAnswer)) :
    List (Nat × MinerAnswer) :=
  results.filterMap fun kv => kv.2.bind fun a =>
    if a.overall_data_hash == mch then some (kv.1, a) else none

/-- The consensus payload `trust_miner_results[0][1]` that `validate_step`
passes to the spot-check verifier, when it exists. -/
def selectedTrust (setOrder : List String)
    (results : List (Nat × Option MinerAnswer)) : Option MinerAnswer :=
  match pyMaxByCount (overallHashes results) setOrder with
  | none => none
  | some mch => (trustResults mch results).head?.map (·.2)

/-- The inner loop of `check_miner_answer` (validator.py lines 398-400):
does any oracle event's `transaction_hash` equal the sampled record's
`transaction_hash`?  Both sides are read with `.get`, and Python's `==`
compares `None` equal to `None`. -/
def hashMatch (oracleEvents : List PoolEvent) (r : Record) : Bool :=
  oracleEvents.any fun ev => ev.transaction_hash == r.transaction_hash

/-- The sampling loop of `check_miner_answer` (validator.py lines 388-401).
`picks` is the stream of records produced by `random.choice(miner_data)`;
iteration `k` draws `picks k`.  A missing `block_number` returns `False`; a
block number outside `[lo, hi]` returns `False`; an oracle match returns
`True`; otherwise the next iteration runs, at most `fuel` in total, and when
the iterations are exhausted the function returns `False`. -/
def checkLoop (lo hi : Int) (oracle : Int → List PoolEvent)
    (picks : Nat → Record) : Nat → Nat → Bool
  | 0, _ => false
  | fuel + 1, k =>
    match (picks k).block_number with
    | none => false
    | some bn =>
      if bn < lo then false
      else if hi < bn then false
      else if hashMatch (oracle bn) (picks k) then true
      else checkLoop lo hi oracle picks fuel (k + 1)

/-- `ANSWER_CHECK_COUNT` (validator.py line 387). -/
def ANSWER_CHECK_COUNT : Nat := 10

/-- Embeds `check_miner_answer` (validator.py lines 368-401).  `lo` and `hi`
are the oracle-resolved block-number boundary; `oracle bn` is the record set
returned by `get_pool_events_by_token_pairs` for block `bn`.  When the payload
is empty, `random.choice` of an empty list raises `IndexError` on the first
iteration. -/
def check_miner_answer (lo hi : Int) (oracle : Int → List PoolEvent)
    (picks : Nat → Record) (miner_answer : MinerAnswer) : Except PyErr Bool :=
  if miner_answer.data.isEmpty then .error .indexError
  else .ok (checkLoop lo hi oracle picks ANSWER_CHECK_COUNT 0)

/-- Observable effects of one `validate_step` round from consensus selection
onward. -/
structure StepTrace where
  savedPool : Bool
  scoringRun : Bool
  emittedWeights : Option (List (Nat × Int))
  outcome : Except PyErr Unit
deriving DecidableEq

/-- The trace of a round that returns `None` before saving, scoring, or
emitting weights. -/
def abandonedTrace : StepTrace :=
  ⟨false, false, none, .ok ()⟩

/-- Embeds `validate_step` from line 496 (`miner_results = zip(...)`) to
line 521 (`set_weights`).  Notes on fidelity:
  * `if not miner_results` (line 497) never fires because a `zip` object is
    always truthy, so it is not modelled;
  * the `zip` iterator `miner_results` is consumed by the list comprehension
    at line 506, so the `score_miners` call at line 514 iterates an exhausted
    iterator: it receives the empty sequence `[]`;
  * `setOrder` is the iteration order of `set(overall_hashes)` at line 504;
  * an uncaught exception anywhere aborts the step (`outcome = .error`). -/
def validateStepCore (max_allowed_weights : Nat) (lo hi : Int)
    (oracle : Int → List PoolEvent) (picks : Nat → Record)
    (setOrder : List String) (results : List (Nat × Option MinerAnswer)) :
    StepTrace :=
  if (overallHashes results).isEmpty then abandonedTrace
  else
    match pyMaxByCount (overallHashes results) setOrder with
    | none => ⟨false, false, none, .error .valueError⟩
    | some mch =>
      match (trustResults mch results).head? with
      | none => ⟨false, false, none, .error .indexError⟩
      | some ka =>
        match check_miner_answer lo hi oracle picks ka.2 with
        | .error e => ⟨false, false, none, .error e⟩
        | .ok false => abandonedTrace
        | .ok true =>
          match score_miners [] ka.2 with
          | .error e => ⟨true, true, none, .error e⟩
          | .ok sd =>
            if sd.isEmpty then ⟨true, true, none, .ok ()⟩
            else
              match set_weights max_allowed_weights sd with
              | .error e => ⟨true, true, none, .error e⟩
              | .ok ws => ⟨true, true, some ws, .ok ()⟩

/-! ### Helper lemmas -/

theorem exceptBind_ok {ε α β : Type} (a : α) (f : α → Except ε β) :
    ((Except.ok a : Except ε α) >>= f) = f a := rfl

theorem exceptBind_error {ε α β : Type} (e : ε) (f : α → Except ε β) :
    ((Except.error e : Except ε α) >>= f) = .error e := rfl

/-- Descending order on scores (second components). -/
def ScoresDesc (l : List (Nat × ℚ)) : Prop :=
  l.Pairwise fun a b => b.2 ≤ a.2

theorem mem_insertAfterGE {x y : Nat × ℚ} {l : List (Nat × ℚ)} :
    y ∈ insertAfterGE x l ↔ y = x ∨ y ∈ l := by
  induction l with
  | nil => simp [insertAfterGE]
  | cons z zs ih =>
    by_cases h : z.2 < x.2
    · simp [insertAfterGE, h]
    · simp [insertAfterGE, h, ih]
      tauto

theorem insertAfterGE_pairwise {x : Nat × ℚ} {l : List (Nat × ℚ)}
    (hl : ScoresDesc l) : ScoresDesc (insertAfterGE x l) := by
  induction l with
  | nil => simp [insertAfterGE, ScoresDesc]
  | cons z zs ih =>
    obtain ⟨hz, hzs⟩ := List.pairwise_cons.mp hl
    by_cases h : z.2 < x.2
    · simp only [insertAfterGE, if_pos h]
      refine List.pairwise_cons.mpr ⟨?_, hl⟩
      intro b hb
      rcases List.mem_cons.mp hb with rfl | hb
      · exact le_of_lt h
      · exact le_trans (hz b hb) (le_of_lt h)
    · simp only [insertAfterGE, if_neg h]
      refine List.pairwise_cons.mpr ⟨?_, ih hzs⟩
      intro b hb
      rcases mem_insertAfterGE.mp hb with rfl | hb
      · exact le_of_not_lt h
      · exact hz b hb

theorem foldl_insert_pairwise :
    ∀ (l acc : List (Nat × ℚ)), ScoresDesc acc →
      ScoresDesc (l.foldl (fun acc x => insertAfterGE x acc) acc)
  | [], _, h => h
  | _ :: xs, _, h => foldl_insert_pairwise xs _ (insertAfterGE_pairwise h)

theorem sortByScoreDesc_pairwise (l : List (Nat × ℚ)) :
    ScoresDesc (sortByScoreDesc l) :=
  foldl_insert_pairwise l [] List.Pairwise.nil

theorem mem_foldl_insert :
    ∀ (l acc : List (Nat × ℚ)) (y : Nat × ℚ),
      y ∈ l.foldl (fun acc x => insertAfterGE x acc) acc ↔ y ∈ acc ∨ y ∈ l
  | [], acc, y => by simp
  | x :: xs, acc, y => by
    have := mem_foldl_insert xs (insertAfterGE x acc) y
    simp only [List.foldl_cons, this, mem_insertAfterGE]
    simp only [List.mem_cons]
    tauto

theorem mem_sortByScoreDesc {y : Nat × ℚ} {l : List (Nat × ℚ)} :
    y ∈ sortByScoreDesc l ↔ y ∈ l := by
  simpa using mem_foldl_insert l [] y

theorem insertAfterGE_append {x : Nat × ℚ} :
    ∀ {l : List (Nat × ℚ)}, (∀ y ∈ l, x.2 ≤ y.2) →
      insertAfterGE x l = l ++ [x]
  | [], _ => rfl
  | z :: zs, h => by
    have hz : x.2 ≤ z.2 := h z (by simp)
    simp only [insertAfterGE, if_neg (not_lt.mpr hz)]
    rw [insertAfterGE_append (fun y hy => h y (by simp [hy]))]
    simp

theorem foldl_insert_sorted :
    ∀ (l acc : List (Nat × ℚ)), ScoresDesc (acc ++ l) →
      l.foldl (fun acc x => insertAfterGE x acc) acc = acc ++ l
  | [], acc, _ => by simp
  | x :: xs, acc, h => by
    have hx : ∀ y ∈ acc, x.2 ≤ y.2 := by
      intro y hy
      exact (List.pairwise_append.mp h).2.2 y hy x (by simp)
    have hstep : insertAfterGE x acc = acc ++ [x] := insertAfterGE_append hx
    have hrec := foldl_insert_sorted xs (acc ++ [x]) (by simpa using h)
    simp only [List.foldl_cons, hstep, hrec]
    simp

theorem sortByScoreDesc_of_sorted {l : List (Nat × ℚ)} (h : ScoresDesc l) :
    sortByScoreDesc l = l := by
  have := foldl_insert_sorted l [] (by simpa using h)
  simpa [sortByScoreDesc] using this

/-! ### Claim theorems: scoring formula (C1, C8) -/

/-- Claim C1: the claim states that the accuracy component produced by
`_score_miner` and the composite in `score_miners` always lie in `[0, 1]`.
The code violates this: for a replying worker with one record that disagrees
with the consensus payload, the accuracy expression
`((cnt_correct_entry - cnt_all * 0.75) / cnt_all * 4) ^ 3` applies the Python
bitwise operator `^` to a float and raises `TypeError` — no score in `[0, 1]`
is ever produced (and under the documented cubic intent `(…) ** 3` the value
would be `(-3)^3 = -27 < 0`). -/
theorem accuracy_component_raises_typeerror :
    scoreMiner samplePrompt (some ⟨[⟨some 1, some "a"⟩], "H1", 1⟩)
      ⟨[⟨some 1, some "b"⟩], "H1", 1⟩ = .error .typeError := by decide

/-- Claim C8: the claim states that a replying worker with an empty payload
(`total = 0`) gets a defined accuracy of 0.  The code instead divides by
`cnt_all = 0` at validator.py line 280 and raises `ZeroDivisionError`. -/
theorem empty_data_zero_division :
    scoreMiner samplePrompt (some ⟨[], "H1", 1⟩) ⟨[], "H1", 1⟩
      = .error .zeroDivisionError := by decide

/-! ### Claim theorems: weight allocator (C5, C9) -/

/-- Claim C5 counterexample: the claim quantifies over every score mapping,
but for the mapping `{1: -1, 2: 2}` the emitted allocation contains the
negative weight `-1000` (the `!= 0` filter at validator.py line 91 keeps
negative weights), so "every weight value is a non-negative integer" is
false. -/
theorem negative_weight_counterexample :
    set_weights 5 [(1, -1), (2, 2)] = .ok [(2, 2000), (1, -1000)] ∧
      ¬ (0 ≤ (-1000 : Int)) := by
  constructor
  · norm_num [set_weights, cut_to_max_allowed_weights, sortByScoreDesc,
      insertAfterGE, pyInt, List.foldl, List.filter, Int.ceil_neg]
    decide
  · norm_num

/-- Claim C9: the weight-allocation pipeline is deterministic — two runs of
`set_weights` on the same score mapping produce identical results — and the
capping stage `cut_to_max_allowed_weights` is idempotent (cutting an
already-cut mapping changes nothing, because the stable sort leaves a sorted
list unchanged and `take` is idempotent). -/
theorem allocator_deterministic (m : Nat) (s : List (Nat × ℚ)) :
    set_weights m s = set_weights m s ∧
    cut_to_max_allowed_weights (cut_to_max_allowed_weights s m) m
      = cut_to_max_allowed_weights s m := by
  refine ⟨rfl, ?_⟩
  unfold cut_to_max_allowed_weights
  have hsorted : ScoresDesc ((sortByScoreDesc s).take m) :=
    (sortByScoreDesc_pairwise s).sublist (List.take_sublist m _)
  rw [sortByScoreDesc_of_sorted hsorted, List.take_take, min_self]

/-! ### Claim theorems: consensus selection (C3) -/

/-- Claim C3 counterexample: consensus selection is `max(set(overall_hashes),
key=overall_hashes.count)` (validator.py line 504).  For the reply sequence
with hashes `["b", "a"]` (a two-way tie), both `["b", "a"]` and `["a", "b"]`
are admissible iteration orders of the Python set `{"b", "a"}`, and they
produce different winners; with order `["a", "b"]` the winner is `"a"`,
not the earliest-appearing hash `"b"`.  So selection is not a deterministic
function of the input sequence and ties are not broken by earliest
appearance. -/
theorem consensus_tiebreak_counterexample :
    validSetOrder ["b", "a"] ["b", "a"] ∧ validSetOrder ["b", "a"] ["a", "b"] ∧
    pyMaxByCount ["b", "a"] ["b", "a"] = some "b" ∧
    pyMaxByCount ["b", "a"] ["a", "b"] = some "a" ∧ ("a" : String) ≠ "b" := by
  decide

/-! ### Claim theorems: latency scoring (C2) and exclusion of non-repliers (C4) -/

theorem foldl_max_const (t : ℚ) :
    ∀ (l : List ℚ), (∀ x ∈ l, x = t) → l.foldl max t = t
  | [], _ => rfl
  | x :: xs, h => by
    have hx : x = t := h x (by simp)
    have hxs : ∀ y ∈ xs, y = t := fun y hy => h y (by simp [hy])
    simp [hx, foldl_max_const t xs hxs]

theorem foldl_min_const (t : ℚ) :
    ∀ (l : List ℚ), (∀ x ∈ l, x = t) → l.foldl min t = t
  | [], _ => rfl
  | x :: xs, h => by
    have hx : x = t := h x (by simp)
    have hxs : ∀ y ∈ xs, y = t := fun y hy => h y (by simp [hy])
    simp [hx, foldl_min_const t xs hxs]

theorem latencyTimes_map_some (l : List (Nat × MinerAnswer)) :
    latencyTimes (l.map fun kv => (kv.1, some kv.2)) =
      .ok (l.map fun kv => (kv.1, kv.2.process_time)) := by
  induction l with
  | nil => rfl
  | cons x xs ih => simp [latencyTimes, ih, exceptBind_ok]

theorem normalizeTimes_degenerate (mn mx : ℚ) (y : Nat × ℚ)
    (ys : List (Nat × ℚ)) (h : mx - mn = 0) :
    normalizeTimes mn mx (y :: ys) = .error .zeroDivisionError := by
  obtain ⟨uid, t⟩ := y
  simp [normalizeTimes, pyDiv, h, exceptBind_error]

/-- Claim C2: the claim states that when all measured latencies are equal the
latency score of every replying worker is 1 and no division-by-zero fault is
raised.  The code has no guard for `max_time == min_time`: the expression at
validator.py line 451 divides by `max_time - min_time`, so any round whose
replying workers all have the same `process_time` (including a single
replier) raises an unhandled `ZeroDivisionError` instead of assigning
latency score 1. -/
theorem equal_latency_divide_by_zero (l : List (Nat × MinerAnswer)) (t : ℚ)
    (hne : l ≠ []) (hall : ∀ kv ∈ l, kv.2.process_time = t) :
    processTimeScore (l.map fun kv => (kv.1, some kv.2)) =
      .error .zeroDivisionError := by
  cases l with
  | nil => exact absurd rfl hne
  | cons x xs =>
    have hx : x.2.process_time = t := hall x (by simp)
    have hcomp : ∀ q ∈ List.map
        ((fun y : Nat × ℚ => y.2) ∘ fun kv : Nat × MinerAnswer => (kv.1, kv.2.process_time)) xs,
        q = t := by
      intro q hq
      obtain ⟨kv, hkv, rfl⟩ := List.mem_map.mp hq
      exact hall kv (by simp [hkv])
    rw [processTimeScore, latencyTimes_map_some, exceptBind_ok]
    simp only [List.map_cons, List.map_map, pyMaxList, pyMinList, hx]
    rw [foldl_max_const t _ hcomp, foldl_min_const t _ hcomp, exceptBind_ok, exceptBind_ok]
    exact normalizeTimes_degenerate t t _ _ (sub_self t)

/-- Claim C2 witness: two replying workers with equal latency 1 second. -/
theorem equal_latency_divide_by_zero_witness :
    processTimeScore [(1, some ⟨[], "H", 1⟩), (2, some ⟨[], "G", 1⟩)] =
      .error .zeroDivisionError :=
  equal_latency_divide_by_zero [(1, ⟨[], "H", 1⟩), (2, ⟨[], "G", 1⟩)] 1
    (by decide) (by intro kv h; fin_cases h <;> rfl)

theorem latencyTimes_error_of_none (uid : Nat) :
    ∀ (results : List (Nat × Option MinerAnswer)),
      (uid, (none : Option MinerAnswer)) ∈ results →
      latencyTimes results = .error .typeError
  | [], h => absurd h (List.not_mem_nil _)
  | (_, none) :: _, _ => rfl
  | (k, some a) :: rest, h => by
    have hrest : (uid, (none : Option MinerAnswer)) ∈ rest := by
      rcases List.mem_cons.mp h with heq | hm
      · exact absurd (congrArg Prod.snd heq) (by simp)
      · exact hm
    simp [latencyTimes, latencyTimes_error_of_none uid rest hrest, exceptBind_error]

theorem accuracyLoop_ok_or_error :
    ∀ (results : List (Nat × Option MinerAnswer)),
      accuracyLoop results = .ok [] ∨ accuracyLoop results = .error .typeError
  | [] => .inl rfl
  | (_, none) :: rest => accuracyLoop_ok_or_error rest
  | (_, some _) :: _ => .inr rfl

/-- Claim C4: the claim states that workers with an absent reply are excluded
entirely from scoring and that the latency min/max are computed only over the
replying workers.  The accuracy loop does skip non-repliers (no record is
created for them), but the process-time comprehension at validator.py
line 448 iterates over every poll outcome, so as soon as any worker failed to
reply the code subscripts `None` and raises `TypeError` — the latency
normalization is not restricted to the replying set as claimed, and
`score_miners` crashes instead of scoring. -/
theorem nonreplier_breaks_latency_normalization
    (results : List (Nat × Option MinerAnswer)) (uid : Nat)
    (trust : MinerAnswer) (h : (uid, (none : Option MinerAnswer)) ∈ results) :
    latencyTimes results = .error .typeError ∧
    score_miners results trust = .error .typeError := by
  have hlat := latencyTimes_error_of_none uid results h
  refine ⟨hlat, ?_⟩
  rw [score_miners]
  rcases accuracyLoop_ok_or_error results with hacc | hacc <;>
    simp [hacc, processTimeScore, hlat, exceptBind_ok, exceptBind_error]

/-- Claim C4 witness: worker 1 replied (empty payload, latency 1) and worker
2 did not reply. -/
theorem nonreplier_breaks_latency_normalization_witness :
    latencyTimes [(1, some ⟨[], "H", 1⟩), (2, none)] = .error .typeError ∧
    score_miners [(1, some ⟨[], "H", 1⟩), (2, none)] ⟨[], "H", 1⟩
      = .error .typeError :=
  nonreplier_breaks_latency_normalization _ 2 _ (by decide)

/-! ### Claim theorems: no-consensus round (C7) -/

theorem overallHashes_nil :
    ∀ (results : List (Nat × Option MinerAnswer)),
      (∀ kv ∈ results, kv.2 = (none : Option MinerAnswer)) →
      overallHashes results = []
  | [], _ => rfl
  | (k, a) :: rest, h => by
    have ha : a = none := h (k, a) (by simp)
    subst ha
    exact overallHashes_nil rest fun kv hkv => h kv (by simp [hkv])

/-- Claim C7: when no worker supplies a usable payload (every poll outcome is
`None`), `overall_hashes` is empty and `validate_step` returns at
validator.py line 503: the round ends with nothing saved, scoring never
invoked, and no weights emitted. -/
theorem all_timeout_no_consensus (m : Nat) (lo hi : Int)
    (oracle : Int → List PoolEvent) (picks : Nat → Record)
    (setOrder : List String) (results : List (Nat × Option MinerAnswer))
    (h : ∀ kv ∈ results, kv.2 = (none : Option MinerAnswer)) :
    validateStepCore m lo hi oracle picks setOrder results = abandonedTrace := by
  rw [validateStepCore, overallHashes_nil results h]
  rfl

/-- Claim C7 witness: five workers, all timed out. -/
theorem all_timeout_no_consensus_witness :
    validateStepCore 5 0 100 (fun _ => []) (fun _ => ⟨none, none⟩) []
      [(1, none), (2, none), (3, none), (4, none), (5, none)]
      = abandonedTrace :=
  all_timeout_no_consensus 5 0 100 _ _ []
    [(1, none), (2, none), (3, none), (4, none), (5, none)] (by decide)

theorem pyMaxFold_spec (hashes : List String) :
    ∀ (os : List String) (b : String),
      ∃ w, os.foldl (pyMaxStep hashes) (some b) = some w ∧ (w = b ∨ w ∈ os) ∧
        hashes.count b ≤ hashes.count w ∧
        ∀ h ∈ os, hashes.count h ≤ hashes.count w
  | [], b => ⟨b, rfl, .inl rfl, le_refl _, by simp⟩
  | o :: os, b => by
    by_cases hc : hashes.count b < hashes.count o
    · obtain ⟨w, hw, hmem, hcnt, hall⟩ := pyMaxFold_spec hashes os o
      refine ⟨w, ?_, ?_, ?_, ?_⟩
      · simpa [pyMaxStep, hc] using hw
      · rcases hmem with rfl | hm
        · exact .inr (by simp)
        · exact .inr (by simp [hm])
      · exact le_trans (le_of_lt hc) hcnt
      · intro h hh
        rcases List.mem_cons.mp hh with rfl | hh
        · exact hcnt
        · exact hall h hh
    · obtain ⟨w, hw, hmem, hcnt, hall⟩ := pyMaxFold_spec hashes os b
      refine ⟨w, ?_, ?_, ?_, ?_⟩
      · simpa [pyMaxStep, hc] using hw
      · rcases hmem with rfl | hm
        · exact .inl rfl
        · exact .inr (by simp [hm])
      · exact hcnt
      · intro h hh
        rcases List.mem_cons.mp hh with rfl | hh
        · exact le_trans (le_of_not_lt hc) hcnt
        · exact hall h hh

/-- Claim C3 (amended): given the input reply hashes AND the iteration order
of the Python set `set(overall_hashes)` (an arbitrary duplicate-free
enumeration of the distinct hashes, hash-dependent rather than derived from
the input sequence), consensus selection is a deterministic function that
returns a hash of maximal group membership; ties are broken by the set's
iteration order, not by earliest appearance in the input sequence. -/
theorem consensus_majority_given_set_order (hashes order : List String)
    (hv : validSetOrder hashes order) (hne : hashes ≠ []) :
    ∃ w, pyMaxByCount hashes order = some w ∧ w ∈ hashes ∧
      ∀ h ∈ hashes, hashes.count h ≤ hashes.count w := by
  obtain ⟨hnd, hsub, hsup⟩ := hv
  cases order with
  | nil =>
    obtain ⟨x, hx⟩ := List.exists_mem_of_ne_nil hashes hne
    exact absurd (hsup x hx) (List.not_mem_nil x)
  | cons o os =>
    obtain ⟨w, hw, hmem, hcnt, hall⟩ := pyMaxFold_spec hashes os o
    refine ⟨w, ?_, ?_, ?_⟩
    · simpa [pyMaxByCount, pyMaxStep] using hw
    · rcases hmem with rfl | hm
      · exact hsub w (by simp)
      · exact hsub w (by simp [hm])
    · intro h hh
      rcases List.mem_cons.mp (hsup h hh) with rfl | hh2
      · exact hcnt
      · exact hall h hh2

/-- Claim C3 witness: three replies, hashes `h1, h1, h2`, set order
`[h1, h2]`: the winner has maximal membership. -/
theorem consensus_majority_given_set_order_witness :
    ∃ w, pyMaxByCount ["h1", "h1", "h2"] ["h1", "h2"] = some w ∧
      w ∈ ["h1", "h1", "h2"] ∧
      ∀ h ∈ ["h1", "h1", "h2"],
        List.count h ["h1", "h1", "h2"] ≤ List.count w ["h1", "h1", "h2"] :=
  consensus_majority_given_set_order ["h1", "h1", "h2"] ["h1", "h2"]
    (by decide) (by decide)

/-! ### Claim theorems: weight bounds (C5 amended, C10) -/

theorem mem_cut {kv : Nat × ℚ} {s : List (Nat × ℚ)} {m : Nat}
    (h : kv ∈ cut_to_max_allowed_weights s m) : kv ∈ s := by
  unfold cut_to_max_allowed_weights at h
  exact mem_sortByScoreDesc.mp ((List.take_sublist m _).subset h)

theorem set_weights_ok_shape (m : Nat) (s : List (Nat × ℚ))
    (ws : List (Nat × Int)) (hok : set_weights m s = .ok ws) :
    ws = [] ∨
    (((cut_to_max_allowed_weights s m).map (·.2)).sum ≠ 0 ∧
      ws = ((cut_to_max_allowed_weights s m).map fun kv =>
        (kv.1, pyInt (kv.2 * 1000 / ((cut_to_max_allowed_weights s m).map (·.2)).sum))).filter
          fun kv => kv.2 != 0) := by
  rw [set_weights] at hok
  by_cases hemp : (cut_to_max_allowed_weights s m).isEmpty
  · rw [if_pos hemp] at hok
    injection hok with h
    exact .inl h.symm
  · rw [if_neg hemp] at hok
    by_cases hz : ((cut_to_max_allowed_weights s m).map (·.2)).sum = 0
    · rw [if_pos hz] at hok
      cases hok
    · rw [if_neg hz] at hok
      injection hok with h
      exact .inr ⟨hz, h.symm⟩

theorem map_sum_le {α : Type} (f g : α → ℚ) :
    ∀ (l : List α), (∀ x ∈ l, f x ≤ g x) → (l.map f).sum ≤ (l.map g).sum
  | [], _ => le_refl 0
  | x :: xs, h => by
    simp only [List.map_cons, List.sum_cons]
    exact add_le_add (h x (by simp))
      (map_sum_le f g xs fun y hy => h y (by simp [hy]))

theorem intCast_list_sum :
    ∀ (l : List Int), ((l.sum : Int) : ℚ) = (l.map fun z : Int => (z : ℚ)).sum
  | [] => by simp
  | x :: xs => by
    simp only [List.sum_cons, List.map_cons, Int.cast_add, intCast_list_sum xs]

theorem filtered_weight_sum_le (p : Nat × Int → Bool) :
    ∀ (l : List (Nat × Int)), (∀ kv ∈ l, 0 ≤ kv.2) →
      ((l.filter p).map (·.2)).sum ≤ (l.map (·.2)).sum
  | [], _ => le_refl 0
  | x :: xs, h => by
    have hx := h x (by simp)
    have hxs : ∀ kv ∈ xs, 0 ≤ kv.2 := fun kv hkv => h kv (by simp [hkv])
    by_cases hp : p x
    · rw [List.filter_cons_of_pos hp]
      simp only [List.map_cons, List.sum_cons]
      exact add_le_add_left (filtered_weight_sum_le p xs hxs) _
    · rw [List.filter_cons_of_neg hp]
      simp only [List.map_cons, List.sum_cons]
      calc ((xs.filter p).map (·.2)).sum ≤ (xs.map (·.2)).sum :=
            filtered_weight_sum_le p xs hxs
        _ ≤ x.2 + (xs.map (·.2)).sum := le_add_of_nonneg_left hx

/-- Claim C5 (amended): for every score mapping whose values are
non-negative (as the code's own documentation requires, scores in `[0, 1]`),
whenever `set_weights` emits an allocation it has at most
`max_allowed_weights` entries and every emitted weight is a positive integer
(in particular non-negative and never 0).  The restriction to non-negative
scores is forced: with a negative score the emitted allocation can contain a
negative weight (see the counterexample), and an all-zero mapping raises
`ZeroDivisionError` instead of emitting. -/
theorem weight_allocation_bounds (m : Nat) (s : List (Nat × ℚ))
    (hnn : ∀ kv ∈ s, 0 ≤ kv.2) (ws : List (Nat × Int))
    (hok : set_weights m s = .ok ws) :
    ws.length ≤ m ∧ ∀ kv ∈ ws, 0 < kv.2 := by
  rcases set_weights_ok_shape m s ws hok with rfl | ⟨hz, rfl⟩
  · simp
  · have hnn' : ∀ kv ∈ cut_to_max_allowed_weights s m, 0 ≤ kv.2 :=
      fun kv hkv => hnn kv (mem_cut hkv)
    have hS_nonneg : 0 ≤ ((cut_to_max_allowed_weights s m).map (·.2)).sum :=
      List.sum_nonneg fun x hx => by
        obtain ⟨kv, hkv, rfl⟩ := List.mem_map.mp hx
        exact hnn' kv hkv
    constructor
    · calc (List.filter _ _).length
          ≤ ((cut_to_max_allowed_weights s m).map fun kv =>
              (kv.1, pyInt (kv.2 * 1000 / ((cut_to_max_allowed_weights s m).map (·.2)).sum))).length :=
            List.length_filter_le _ _
        _ = (cut_to_max_allowed_weights s m).length := List.length_map _ _
        _ ≤ m := by
            rw [cut_to_max_allowed_weights, List.length_take]
            exact min_le_left _ _
    · intro kv hkv
      obtain ⟨hmem, hne0⟩ := List.mem_filter.mp hkv
      obtain ⟨kv0, hkv0, rfl⟩ := List.mem_map.mp hmem
      have hq : 0 ≤ kv0.2 * 1000 / ((cut_to_max_allowed_weights s m).map (·.2)).sum :=
        div_nonneg (mul_nonneg (hnn' kv0 hkv0) (by norm_num)) hS_nonneg
      have hge : 0 ≤ pyInt (kv0.2 * 1000 / ((cut_to_max_allowed_weights s m).map (·.2)).sum) := by
        rw [pyInt, if_pos hq]
        exact Int.floor_nonneg.mpr hq
      have hne : pyInt (kv0.2 * 1000 / ((cut_to_max_allowed_weights s m).map (·.2)).sum) ≠ 0 := by
        simpa using hne0
      exact lt_of_le_of_ne hge (Ne.symm hne)

/-- Claim C5 witness: the spec's Scenario E mapping
`{1: 0.9, 2: 0.3, 3: 0.05}` with `max_count = 2`. -/
theorem weight_allocation_bounds_witness :
    (([(1, 750), (2, 250)] : List (Nat × Int)).length ≤ 2) ∧
    ∀ kv ∈ ([(1, 750), (2, 250)] : List (Nat × Int)), 0 < kv.2 :=
  weight_allocation_bounds 2 [(1, 9/10), (2, 3/10), (3, 1/20)]
    (by intro kv h; fin_cases h <;> norm_num) [(1, 750), (2, 250)]
    (by norm_num [set_weights, cut_to_max_allowed_weights, sortByScoreDesc,
        insertAfterGE, pyInt, List.foldl, List.filter]
        decide)

/-- Claim C10: for every score mapping with values in `[0, 1]`, whenever
`set_weights` emits an allocation, the emitted integer weights sum to at most
1000: each retained worker's weight is the truncation of
`score * 1000 / scores` where `scores` is the sum of the retained scores, so
the exact shares sum to exactly 1000 and flooring only decreases them. -/
theorem weights_sum_le_budget (m : Nat) (s : List (Nat × ℚ))
    (h01 : ∀ kv ∈ s, 0 ≤ kv.2 ∧ kv.2 ≤ 1) (ws : List (Nat × Int))
    (hok : set_weights m s = .ok ws) :
    (ws.map (·.2)).sum ≤ 1000 := by
  rcases set_weights_ok_shape m s ws hok with rfl | ⟨hz, rfl⟩
  · simp
  · have hnn' : ∀ kv ∈ cut_to_max_allowed_weights s m, 0 ≤ kv.2 :=
      fun kv hkv => (h01 kv (mem_cut hkv)).1
    have hS_nonneg : 0 ≤ ((cut_to_max_allowed_weights s m).map (·.2)).sum :=
      List.sum_nonneg fun x hx => by
        obtain ⟨kv, hkv, rfl⟩ := List.mem_map.mp hx
        exact hnn' kv hkv
    have hS_pos : 0 < ((cut_to_max_allowed_weights s m).map (·.2)).sum :=
      lt_of_le_of_ne hS_nonneg (Ne.symm hz)
    have hq : ∀ kv ∈ cut_to_max_allowed_weights s m,
        0 ≤ kv.2 * 1000 / ((cut_to_max_allowed_weights s m).map (·.2)).sum :=
      fun kv hkv =>
        div_nonneg (mul_nonneg (hnn' kv hkv) (by norm_num)) hS_nonneg
    have hfull_nonneg : ∀ kv ∈ (cut_to_max_allowed_weights s m).map fun kv =>
        (kv.1, pyInt (kv.2 * 1000 / ((cut_to_max_allowed_weights s m).map (·.2)).sum)),
        0 ≤ kv.2 := by
      intro kv hkv
      obtain ⟨kv0, hkv0, rfl⟩ := List.mem_map.mp hkv
      show 0 ≤ pyInt _
      rw [pyInt, if_pos (hq kv0 hkv0)]
      exact Int.floor_nonneg.mpr (hq kv0 hkv0)
    have h1 := filtered_weight_sum_le (fun kv => kv.2 != 0) _ hfull_nonneg
    have hmm : (((cut_to_max_allowed_weights s m).map fun kv =>
        (kv.1, pyInt (kv.2 * 1000 / ((cut_to_max_allowed_weights s m).map (·.2)).sum))).map (·.2))
        = (cut_to_max_allowed_weights s m).map fun kv =>
            pyInt (kv.2 * 1000 / ((cut_to_max_allowed_weights s m).map (·.2)).sum) := by
      rw [List.map_map]
      rfl
    have h2 : ((((cut_to_max_allowed_weights s m).map fun kv =>
        pyInt (kv.2 * 1000 / ((cut_to_max_allowed_weights s m).map (·.2)).sum)).sum : Int) : ℚ)
        ≤ 1000 := by
      rw [intCast_list_sum, List.map_map]
      have hle : ∀ kv ∈ cut_to_max_allowed_weights s m,
          ((fun z : Int => (z : ℚ)) ∘ fun kv : Nat × ℚ =>
            pyInt (kv.2 * 1000 / ((cut_to_max_allowed_weights s m).map (·.2)).sum)) kv
          ≤ kv.2 * (1000 / ((cut_to_max_allowed_weights s m).map (·.2)).sum) := by
        intro kv hkv
        show ((pyInt (kv.2 * 1000 / ((cut_to_max_allowed_weights s m).map (·.2)).sum) : Int) : ℚ) ≤ _
        rw [pyInt, if_pos (hq kv hkv)]
        calc ((⌊kv.2 * 1000 / ((cut_to_max_allowed_weights s m).map (·.2)).sum⌋ : Int) : ℚ)
            ≤ kv.2 * 1000 / ((cut_to_max_allowed_weights s m).map (·.2)).sum := Int.floor_le _
          _ = kv.2 * (1000 / ((cut_to_max_allowed_weights s m).map (·.2)).sum) := by ring
      calc ((cut_to_max_allowed_weights s m).map ((fun z : Int => (z : ℚ)) ∘ fun kv : Nat × ℚ =>
              pyInt (kv.2 * 1000 / ((cut_to_max_allowed_weights s m).map (·.2)).sum))).sum
          ≤ ((cut_to_max_allowed_weights s m).map fun kv =>
              kv.2 * (1000 / ((cut_to_max_allowed_weights s m).map (·.2)).sum)).sum :=
            map_sum_le _ _ _ hle
        _ = ((cut_to_max_allowed_weights s m).map (·.2)).sum
              * (1000 / ((cut_to_max_allowed_weights s m).map (·.2)).sum) :=
            List.sum_map_mul_right _ _ _
        _ = 1000 := by field_simp
    rw [hmm] at h1
    have h2' : ((cut_to_max_allowed_weights s m).map fun kv =>
        pyInt (kv.2 * 1000 / ((cut_to_max_allowed_weights s m).map (·.2)).sum)).sum
        ≤ (1000 : Int) := by exact_mod_cast h2
    exact le_trans h1 h2'

/-- Claim C10 witness: Scenario E scores sum to exactly 1000 weight units. -/
theorem weights_sum_le_budget_witness :
    ((([(1, 750), (2, 250)] : List (Nat × Int)).map (·.2)).sum ≤ 1000) :=
  weights_sum_le_budget 2 [(1, 9/10), (2, 3/10), (3, 1/20)]
    (by intro kv h; fin_cases h <;> norm_num) [(1, 750), (2, 250)]
    (by norm_num [set_weights, cut_to_max_allowed_weights, sortByScoreDesc,
        insertAfterGE, pyInt, List.foldl, List.filter]
        decide)

/-! ### Claim theorems: spot-check verifier (C6) -/

theorem checkLoop_congr (lo hi : Int) (oracle : Int → List PoolEvent)
    (picks picks2 : Nat → Record) :
    ∀ (fuel k : Nat), (∀ i, k ≤ i → i < k + fuel → picks i = picks2 i) →
      checkLoop lo hi oracle picks fuel k = checkLoop lo hi oracle picks2 fuel k
  | 0, _, _ => rfl
  | fuel + 1, k, h => by
    have hk : picks k = picks2 k := h k (le_refl k) (by omega)
    have hrec := checkLoop_congr lo hi oracle picks picks2 fuel (k + 1)
      fun i h1 h2 => h i (by omega) (by omega)
    simp only [checkLoop, hk, hrec]

theorem checkLoop_no_match (lo hi : Int) (oracle : Int → List PoolEvent)
    (picks : Nat → Record) :
    ∀ (fuel k : Nat),
      (∀ i, k ≤ i → i < k + fuel → ∀ bn, (picks i).block_number = some bn →
        hashMatch (oracle bn) (picks i) = false) →
      checkLoop lo hi oracle picks fuel k = false
  | 0, _, _ => rfl
  | fuel + 1, k, h => by
    have hrec := checkLoop_no_match lo hi oracle picks fuel (k + 1)
      fun i h1 h2 => h i (by omega) (by omega)
    cases hbn : (picks k).block_number with
    | none => simp [checkLoop, hbn]
    | some bn =>
      have hm := h k (le_refl k) (by omega) bn hbn
      simp [checkLoop, hbn, hm, hrec]

theorem trustResults_nil_of_no_hashes (mch : String) :
    ∀ (results : List (Nat × Option MinerAnswer)),
      overallHashes results = [] → trustResults mch results = []
  | [], _ => rfl
  | (k, none) :: rest, h => trustResults_nil_of_no_hashes mch rest h
  | (k, some a) :: rest, h => by
    exact absurd h (by simp [overallHashes])

/-- Claim C6 counterexample: the claim states that when no draw produces a
match the outcome is rejection.  For a consensus payload with zero records
(`data = []`) no draw can produce a match, yet the outcome is not a
rejection: `random.choice(miner_data)` at validator.py line 389 raises
`IndexError` on the first iteration. -/
theorem empty_payload_spot_check_crash :
    check_miner_answer 0 100 (fun _ => []) (fun _ => ⟨some 1, some "t"⟩)
      ⟨[], "H", 1⟩ = .error .indexError ∧
    (Except.error PyErr.indexError : Except PyErr Bool) ≠ .ok false := by
  exact ⟨rfl, fun h => by cases h⟩

/-- Claim C6 (amended): provided the consensus payload is non-empty, the
spot-check verifier behaves as claimed: (1) the outcome depends on at most
`ANSWER_CHECK_COUNT = 10` random draws; (2) it rejects immediately when a
sampled record's block number lies outside the oracle-resolved boundary;
(3) it accepts the entire consensus as soon as a sampled record's transaction
hash is found in the oracle's record set; (4) when no draw produces a match
within the 10 attempts the outcome is rejection; and (5) on rejection
`validate_step` abandons the round: nothing is saved to the task store,
scoring never runs, and no weights are emitted. -/
theorem spot_check_behaviour (lo hi : Int) (oracle : Int → List PoolEvent)
    (picks picks2 : Nat → Record) (a : MinerAnswer) (setOrder : List String)
    (results : List (Nat × Option MinerAnswer)) (m : Nat) :
    ((∀ i, i < ANSWER_CHECK_COUNT → picks i = picks2 i) →
      check_miner_answer lo hi oracle picks a
        = check_miner_answer lo hi oracle picks2 a)
    ∧ (∀ bn, a.data ≠ [] → (picks 0).block_number = some bn →
        (bn < lo ∨ hi < bn) →
        check_miner_answer lo hi oracle picks a = .ok false)
    ∧ (∀ bn, a.data ≠ [] → (picks 0).block_number = some bn → lo ≤ bn →
        bn ≤ hi → hashMatch (oracle bn) (picks 0) = true →
        check_miner_answer lo hi oracle picks a = .ok true)
    ∧ ((∀ i, i < ANSWER_CHECK_COUNT → ∀ bn,
          (picks i).block_number = some bn →
          hashMatch (oracle bn) (picks i) = false) →
        a.data ≠ [] → check_miner_answer lo hi oracle picks a = .ok false)
    ∧ (check_miner_answer lo hi oracle picks a = .ok false →
        selectedTrust setOrder results = some a →
        validateStepCore m lo hi oracle picks setOrder results
          = abandonedTrace) := by
  refine ⟨?_, ?_, ?_, ?_, ?_⟩
  · intro hp
    by_cases hdata : a.data.isEmpty
    · simp [check_miner_answer, hdata]
    · rw [check_miner_answer, check_miner_answer, if_neg hdata, if_neg hdata]
      exact congrArg Except.ok (checkLoop_congr lo hi oracle picks picks2
        ANSWER_CHECK_COUNT 0 fun i h1 h2 => hp i (by simpa using h2))
  · intro bn hdata hbn hout
    have hne : ¬ (a.data.isEmpty = true) := by
      simpa [List.isEmpty_iff] using hdata
    rw [check_miner_answer, if_neg hne]
    have hl : checkLoop lo hi oracle picks (9 + 1) 0 = false := by
      rcases hout with h | h
      · simp [checkLoop, hbn, h]
      · by_cases h2 : bn < lo
        · simp [checkLoop, hbn, h2]
        · simp [checkLoop, hbn, h2, h]
    exact congrArg Except.ok hl
  · intro bn hdata hbn hlo hhi hm
    have hne : ¬ (a.data.isEmpty = true) := by
      simpa [List.isEmpty_iff] using hdata
    rw [check_miner_answer, if_neg hne]
    have hl : checkLoop lo hi oracle picks (9 + 1) 0 = true := by
      simp only [checkLoop, hbn]
      rw [if_neg (by omega : ¬ bn < lo), if_neg (by omega : ¬ hi < bn),
        if_pos hm]
    exact congrArg Except.ok hl
  · intro hnm hdata
    have hne : ¬ (a.data.isEmpty = true) := by
      simpa [List.isEmpty_iff] using hdata
    rw [check_miner_answer, if_neg hne]
    exact congrArg Except.ok (checkLoop_no_match lo hi oracle picks
      ANSWER_CHECK_COUNT 0 fun i h1 h2 => hnm i (by simpa using h2))
  · intro hchk hsel
    rw [selectedTrust] at hsel
    by_cases hemp : (overallHashes results).isEmpty
    · exfalso
      have h0 : overallHashes results = [] := by
        simpa [List.isEmpty_iff] using hemp
      cases hmc : pyMaxByCount (overallHashes results) setOrder with
      | none => simp [hmc] at hsel
      | some mch =>
        simp only [hmc] at hsel
        rw [trustResults_nil_of_no_hashes mch results h0] at hsel
        simp at hsel
    · rw [validateStepCore, if_neg hemp]
      cases hmc : pyMaxByCount (overallHashes results) setOrder with
      | none => simp [hmc] at hsel
      | some mch =>
        simp only [hmc] at hsel
        cases hht : (trustResults mch results).head? with
        | none => simp [hht] at hsel
        | some ka =>
          have hka : ka.2 = a := by
            simpa [hht] using hsel
          simp only [hmc, hht, hka, hchk]

/-- An oracle that returns one event with transaction hash `t` for every
block. -/
def oracleW : Int → List PoolEvent := fun _ => [⟨some "t"⟩]

/-- A draw stream whose every sample has block number 5 and hash `t`. -/
def picksHit : Nat → Record := fun _ => ⟨some 5, some "t"⟩

/-- A draw stream whose every sample lacks a block number. -/
def picksMiss : Nat → Record := fun _ => ⟨none, some "t"⟩

/-- A one-record payload matching `picksHit`. -/
def aHit : MinerAnswer := ⟨[⟨some 5, some "t"⟩], "H", 1⟩

/-- A one-record payload whose record lacks a block number. -/
def aMiss : MinerAnswer := ⟨[⟨none, some "t"⟩], "H", 1⟩

/-- Claim C6 witness: a matching first draw is accepted; a round whose every
draw lacks a block number is rejected and the step is abandoned with nothing
saved, no scoring, and no weights. -/
theorem spot_check_behaviour_witness :
    check_miner_answer 0 100 oracleW picksHit aHit = .ok true ∧
    validateStepCore 7 0 100 oracleW picksMiss ["H"] [(1, some aMiss)]
      = abandonedTrace := by
  constructor
  · exact (spot_check_behaviour 0 100 oracleW picksHit picksHit aHit ["H"] [] 7).2.2.1
      5 (by decide) rfl (by norm_num) (by norm_num) rfl
  · have hfalse : check_miner_answer 0 100 oracleW picksMiss aMiss = .ok false :=
      (spot_check_behaviour 0 100 oracleW picksMiss picksMiss aMiss ["H"] [] 7).2.2.2.1
        (fun i _ bn hbn => Option.noConfusion hbn) (by decide)
    exact (spot_check_behaviour 0 100 oracleW picksMiss picksMiss aMiss ["H"]
      [(1, some aMiss)] 7).2.2.2.2 hfalse rfl

end Velora
